import Mathlib

/-!
Verification of the sliding-puzzle state machine implemented in `game.py`
(class `puzzle`) and its command-line wrapper `main.py`.

The board state of the Python class consists of:
  * `N`              — the grid dimension (`self.N`);
  * a list of button positions, one per tile identifier `0 .. N²-2`
    (the grid coordinates stored on `self.buttons[i]`) — here `tiles`;
  * `self.vacant`    — the cached vacant cell — here `vacant`;
  * `self.monitor_status` — here `monitor`;
  * `self.moves`     — here `moves`.
We additionally record the list of "solved" popup messages emitted so far
(`mb.showinfo` carrying `self.moves`) in `msgs`, so that notification
behaviour can be reasoned about; the source shows the popup as a side
effect.  The pseudo-random stream of `random.choices` is abstracted as a
function `pick : Nat → Nat` giving the index of the button chosen at each
iteration of the shuffle loop.
-/

namespace Puzzle

/-- `abs(a - b)` on Python ints, for natural-number coordinates. -/
def absDiff (a b : Nat) : Nat := max a b - min a b

/-- The adjacency test of `puzzle.move`:
`set((abs(vacant_row - button_row), abs(vacant_column - button_column))) == {0, 1}`,
i.e. one coordinate difference is `0` and the other is `1`. -/
def adjacentB (p q : Nat × Nat) : Bool :=
  (absDiff p.1 q.1 == 0 && absDiff p.2 q.2 == 1) ||
  (absDiff p.1 q.1 == 1 && absDiff p.2 q.2 == 0)

/-- `p` is a position on the `N × N` grid. -/
def inGrid (N : Nat) (p : Nat × Nat) : Prop := p.1 < N ∧ p.2 < N

instance (N : Nat) (p : Nat × Nat) : Decidable (inGrid N p) := by
  unfold inGrid; infer_instance

/-- The abstract state of the Python `puzzle` object (ignoring the Tk
widgets, which carry no game state beyond the grid coordinates kept in
`tiles`). -/
structure Board where
  N : Nat
  tiles : List (Nat × Nat)
  vacant : Nat × Nat
  monitor : Bool
  moves : Nat
  msgs : List Nat
  deriving Repr, DecidableEq

/-- The tile identifier occupying cell `p`, i.e. the index of the first
button whose grid coordinates equal `p` (`none` if no button is there). -/
def cellAt : List (Nat × Nat) → Nat × Nat → Option Nat
  | [], _ => none
  | q :: rest, p => if q = p then some 0 else (cellAt rest p).map (· + 1)

/-- The identity placement used by `puzzle.reset`
(`row = i // N`, `column = i % N` for each button `i`). -/
def identTiles (N : Nat) : List (Nat × Nat) :=
  (List.range (N ^ 2 - 1)).map (fun k => (k / N, k % N))

/-- The initial placement of `puzzle.__init__`: the buttons are laid out on
`list(itertools.product(range(N), range(N)))[:-1]` in order, i.e. row-major
order with the last cell left out. -/
def initialLayout (N : Nat) : List (Nat × Nat) :=
  ((List.range N).flatMap (fun r => (List.range N).map (fun c => (r, c)))).dropLast

/-- `puzzle.__init__(parent, N, image)`: board-state effects only (the
image slicing and widget creation carry no game state).  `vacant` starts at
`(N-1, N-1)`, `monitor_status` at `False`, `moves` at `0`. -/
def mkPuzzle (N : Nat) : Board :=
  { N := N
    tiles := initialLayout N
    vacant := (N - 1, N - 1)
    monitor := false
    moves := 0
    msgs := [] }

/-- The first half of `puzzle.move`: read the current position of the
clicked button, compare with `self.vacant`, and if adjacent move the button
into the vacant cell and cache the old button position as the new
vacancy. -/
def doSwap (b : Board) (t : Nat) : Board :=
  match b.tiles.get? t with
  | none => b
  | some p =>
      if adjacentB p b.vacant then
        { b with tiles := b.tiles.set t b.vacant, vacant := p }
      else b

/-- The generator expression of the solved test in `puzzle.move`: every
enumerated button `i` satisfies `i == row * N + column` for its current
grid coordinates, rendered as a recursion over the button list carrying
the enumeration index. -/
def solvedFrom (N : Nat) : Nat → List (Nat × Nat) → Bool
  | _, [] => true
  | i, p :: rest => (i == p.1 * N + p.2) && solvedFrom N (i + 1) rest

/-- The solved test of `puzzle.move` on the whole board. -/
def solvedCheck (b : Board) : Bool := solvedFrom b.N 0 b.tiles

/-- The second half of `puzzle.move`: if `self.monitor_status`, increment
`self.moves`, then test the solved condition; on success set
`self.monitor_status = False` and show the popup carrying `self.moves`. -/
def monitorStep (b : Board) : Board :=
  if b.monitor then
    let b1 := { b with moves := b.moves + 1 }
    if solvedCheck b1 then
      { b1 with monitor := false, msgs := b1.msgs ++ [b1.moves] }
    else b1
  else b

/-- `puzzle.move(_button)` for the button with tile identifier `t`. -/
def move (b : Board) (t : Nat) : Board := monitorStep (doSwap b t)

/-- Activating the board at grid position `p`: clicking the button located
at `p` (this is how `move` is ever invoked from the UI: the callback of
each button runs `self.move` on that button).  If no button sits at `p`
(the vacant cell) no callback exists and nothing happens. -/
def activate (b : Board) (p : Nat × Nat) : Board :=
  match cellAt b.tiles p with
  | some t => move b t
  | none => b

/-- `puzzle.randomise()`: disable monitoring, call `move` on
`random.choices(self.buttons, k = 1000 * self.N)` — a sequence of
`1000 * N` button picks drawn from the random stream `pick` — then
re-enable monitoring and zero the move counter. -/
def randomise (b : Board) (pick : Nat → Nat) : Board :=
  let picks := (List.range (1000 * b.N)).map pick
  let b2 := picks.foldl move { b with monitor := false }
  { b2 with monitor := true, moves := 0 }

/-- `puzzle.reset()`: place button `i` at `(i // N, i % N)`, reset the
vacancy cache to `(N-1, N-1)`, disable monitoring, zero the counter. -/
def reset (b : Board) : Board :=
  { b with tiles := (List.range b.tiles.length).map (fun i => (i / b.N, i % b.N))
           vacant := (b.N - 1, b.N - 1)
           monitor := false
           moves := 0 }

/-- The size-argument handling of `main.py`: `N = int(sys.argv[1])`,
`assert N > 2`, and on `AssertionError`/`IndexError`/`ValueError` fall back
to `N = 3`.  `none` stands for a missing or non-integer argument. -/
def parseSize (arg : Option Int) : Nat :=
  match arg with
  | some n => if 2 < n then n.toNat else 3
  | none => 3

/-- The error taxonomy the specification describes for construction. -/
inductive ConstructErr where
  | invalidSize
  deriving Repr, DecidableEq

/-- Modelled from the spec (for comparison with the source constructor,
which has no size validation): `create(size) -> Board` "constructs in
identity configuration; fails with `InvalidSize` if size < 3". -/
def createSpec (N : Nat) : Except ConstructErr Board :=
  if N < 3 then Except.error ConstructErr.invalidSize else Except.ok (mkPuzzle N)

/-- The configuration (grid contents and vacancy) of a board, the data the
reachability claims are about. -/
def conf (b : Board) : List (Nat × Nat) × (Nat × Nat) := (b.tiles, b.vacant)

/-- One adjacent-to-vacancy swap on a configuration: some tile `t` sits at
a position `p` adjacent to the vacancy; the swap moves it into the vacancy
and the vacancy to `p`. -/
inductive SwapStep : List (Nat × Nat) × (Nat × Nat) → List (Nat × Nat) × (Nat × Nat) → Prop where
  | mk (c : List (Nat × Nat) × (Nat × Nat)) (t : Nat) (p : Nat × Nat)
      (hget : c.1.get? t = some p) (hadj : adjacentB p c.2 = true) :
      SwapStep c (c.1.set t c.2, p)

/-- Reachability by a finite sequence of adjacent-to-vacancy swaps. -/
inductive SwapReach : List (Nat × Nat) × (Nat × Nat) → List (Nat × Nat) × (Nat × Nat) → Prop where
  | refl (c : List (Nat × Nat) × (Nat × Nat)) : SwapReach c c
  | tail {a b c : List (Nat × Nat) × (Nat × Nat)} :
      SwapReach a b → SwapStep b c → SwapReach a c

/-- The states reachable from construction with size `N` by any sequence
of `activate`, `shuffle` and `reset` operations. -/
inductive Reachable (N : Nat) : Board → Prop where
  | init : Reachable N (mkPuzzle N)
  | step_activate {b : Board} (p : Nat × Nat) : Reachable N b → Reachable N (activate b p)
  | step_randomise {b : Board} (pick : Nat → Nat) : Reachable N b → Reachable N (randomise b pick)
  | step_reset {b : Board} : Reachable N b → Reachable N (reset b)

/-- The representation invariant of a board: the button list has one entry
per tile identifier `0 .. N²-2`, the recorded positions are pairwise
distinct in-grid cells, the cached vacancy is the one in-grid cell hosting
no button, and together they cover the grid. -/
structure Inv (b : Board) : Prop where
  len : b.tiles.length = b.N ^ 2 - 1
  nodup : b.tiles.Nodup
  tiles_lt : ∀ p ∈ b.tiles, p.1 < b.N ∧ p.2 < b.N
  vacant_lt : b.vacant.1 < b.N ∧ b.vacant.2 < b.N
  vacant_not_mem : b.vacant ∉ b.tiles
  cover : ∀ p : Nat × Nat, p.1 < b.N → p.2 < b.N → p = b.vacant ∨ p ∈ b.tiles

/-! ### Basic facts about adjacency and `cellAt` -/

theorem adjacentB_ne {p q : Nat × Nat} (h : adjacentB p q = true) : p ≠ q := by
  rintro rfl
  simp [adjacentB, absDiff] at h

theorem cellAt_eq_none {l : List (Nat × Nat)} {p : Nat × Nat} :
    cellAt l p = none ↔ p ∉ l := by
  induction l with
  | nil => simp [cellAt]
  | cons q rest ih =>
    by_cases hq : q = p
    · subst hq; simp [cellAt]
    · simp [cellAt, hq, Option.map_eq_none', ih, Ne.symm hq]

theorem cellAt_get? {l : List (Nat × Nat)} {p : Nat × Nat} {t : Nat}
    (h : cellAt l p = some t) : l.get? t = some p := by
  induction l generalizing t with
  | nil => simp [cellAt] at h
  | cons q rest ih =>
    by_cases hq : q = p
    · subst hq
      simp [cellAt] at h
      subst h
      rfl
    · simp [cellAt, hq] at h
      obtain ⟨t', ht', rfl⟩ := h
      simpa using ih ht'

theorem cellAt_of_nodup {l : List (Nat × Nat)} {p : Nat × Nat} {t : Nat}
    (hnd : l.Nodup) (h : l.get? t = some p) : cellAt l p = some t := by
  induction l generalizing t with
  | nil => simp at h
  | cons q rest ih =>
    cases t with
    | zero =>
      simp at h
      subst h
      simp [cellAt]
    | succ t =>
      simp only [List.get?_cons_succ] at h
      have hp : p ∈ rest := List.mem_iff_get?.mpr ⟨t, h⟩
      have hq : q ≠ p := by
        rintro rfl
        exact (List.nodup_cons.mp hnd).1 hp
      simp [cellAt, hq, ih (List.nodup_cons.mp hnd).2 h]

theorem nodup_get?_inj {l : List (Nat × Nat)} (hnd : l.Nodup) {i j : Nat} {p : Nat × Nat}
    (hi : l.get? i = some p) (hj : l.get? j = some p) : i = j := by
  have h1 := cellAt_of_nodup hnd hi
  have h2 := cellAt_of_nodup hnd hj
  rw [h1] at h2
  exact Option.some_injective _ h2

theorem nodup_set {l : List (Nat × Nat)} {x : Nat × Nat}
    (hnd : l.Nodup) (hx : x ∉ l) : ∀ t : Nat, (l.set t x).Nodup := by
  induction l with
  | nil => intro t; simp
  | cons a rest ih =>
    intro t
    cases t with
    | zero =>
      rw [List.set_cons_zero, List.nodup_cons]
      exact ⟨fun hm => hx (List.mem_cons_of_mem _ hm), (List.nodup_cons.mp hnd).2⟩
    | succ t =>
      rw [List.set_cons_succ, List.nodup_cons]
      refine ⟨fun hm => ?_, ih (List.nodup_cons.mp hnd).2
        (fun hm => hx (List.mem_cons_of_mem _ hm)) t⟩
      rcases List.mem_or_eq_of_mem_set hm with hm' | rfl
      · exact (List.nodup_cons.mp hnd).1 hm'
      · exact hx (List.mem_cons_self _ _)

theorem get?_set_self {l : List (Nat × Nat)} {t : Nat} {p x : Nat × Nat}
    (h : l.get? t = some p) : (l.set t x).get? t = some x := by
  rw [List.get?_set_eq, h]
  rfl

theorem not_mem_set {l : List (Nat × Nat)} {t : Nat} {p x : Nat × Nat}
    (hnd : l.Nodup) (hget : l.get? t = some p) (hne : p ≠ x) : p ∉ l.set t x := by
  intro hmem
  rcases List.mem_iff_get?.mp hmem with ⟨i, hi⟩
  by_cases hit : i = t
  · subst hit
    rw [get?_set_self hget] at hi
    exact hne (Option.some_injective _ hi).symm
  · rw [List.get?_set_ne _ _ (Ne.symm hit)] at hi
    exact hit (nodup_get?_inj hnd hi hget)

theorem mem_set_self {l : List (Nat × Nat)} {t : Nat} {p x : Nat × Nat}
    (hget : l.get? t = some p) : x ∈ l.set t x :=
  List.mem_iff_get?.mpr ⟨t, get?_set_self hget⟩

/-! ### The initial and identity layouts -/

theorem flatMap_rowMajor_get? {N : Nat} (hN : 0 < N) :
    ∀ (rs : List Nat) (i : Nat), i < rs.length * N →
      (rs.flatMap (fun r => (List.range N).map (fun c => (r, c)))).get? i
        = some (rs.getD (i / N) 0, i % N) := by
  intro rs
  induction rs with
  | nil => intro i hi; simp at hi
  | cons r rest ih =>
    intro i hi
    rw [List.flatMap_cons]
    have hlen : ((List.range N).map (fun c => (r, c))).length = N := by simp
    by_cases hiN : i < N
    · rw [List.get?_append (by rw [hlen]; exact hiN)]
      rw [List.get?_map, List.get?_range hiN]
      simp [Nat.div_eq_of_lt hiN, Nat.mod_eq_of_lt hiN]
    · push_neg at hiN
      rw [List.get?_append_right (by rw [hlen]; exact hiN), hlen]
      obtain ⟨j, rfl⟩ : ∃ j, i = j + N := ⟨i - N, (Nat.sub_add_cancel hiN).symm⟩
      have hj : j < rest.length * N := by
        have : (r :: rest).length * N = rest.length * N + N := by
          simp [Nat.succ_mul]
        rw [this] at hi
        exact Nat.lt_of_add_lt_add_right hi
      rw [Nat.add_sub_cancel, ih j hj, Nat.add_div_right _ hN, Nat.add_mod_right,
        List.getD_cons_succ]

theorem identTiles_length (N : Nat) : (identTiles N).length = N ^ 2 - 1 := by
  simp [identTiles]

theorem identTiles_get? {N i : Nat} (hi : i < N ^ 2 - 1) :
    (identTiles N).get? i = some (i / N, i % N) := by
  unfold identTiles
  rw [List.get?_map, List.get?_range hi]
  rfl

theorem initialLayout_length (N : Nat) : (initialLayout N).length = N * N - 1 := by
  unfold initialLayout
  rw [List.length_dropLast, List.length_flatMap]
  simp [Function.comp_def, List.map_const']

theorem initialLayout_get? {N : Nat} (hN : 0 < N) {i : Nat} (hi : i < N * N - 1) :
    (initialLayout N).get? i = some (i / N, i % N) := by
  have hlen : ((List.range N).flatMap fun r => (List.range N).map fun c => (r, c)).length
      = N * N := by
    rw [List.length_flatMap]
    simp [Function.comp_def, List.map_const']
  have hiNN : i < N * N := lt_of_lt_of_le hi (Nat.sub_le _ _)
  have hdiv : i / N < N := (Nat.div_lt_iff_lt_mul hN).mpr hiNN
  unfold initialLayout
  rw [List.dropLast_eq_take, hlen, List.get?_take hi,
    flatMap_rowMajor_get? hN (List.range N) i (by simpa using hiNN)]
  rw [List.getD_eq_get?, List.get?_range hdiv]
  rfl

theorem initialLayout_eq_identTiles (N : Nat) : initialLayout N = identTiles N := by
  rcases Nat.eq_zero_or_pos N with h0 | hN
  · subst h0; rfl
  · apply List.ext
    intro n
    by_cases hn : n < N * N - 1
    · rw [initialLayout_get? hN hn, identTiles_get? (by rwa [pow_two])]
    · push_neg at hn
      rw [List.get?_eq_none.mpr, List.get?_eq_none.mpr]
      · rw [identTiles_length, pow_two]; exact hn
      · rw [initialLayout_length]; exact hn

theorem divmod_inj (N : Nat) : Function.Injective (fun k : Nat => (k / N, k % N)) := by
  intro a b h
  simp only [Prod.mk.injEq] at h
  obtain ⟨h1, h2⟩ := h
  calc a = N * (a / N) + a % N := (Nat.div_add_mod a N).symm
    _ = N * (b / N) + b % N := by rw [h1, h2]
    _ = b := Nat.div_add_mod b N

theorem identTiles_nodup (N : Nat) : (identTiles N).Nodup :=
  (List.nodup_range _).map (divmod_inj N)

theorem identTiles_mem {N : Nat} {p : Nat × Nat} (hN : 0 < N) (hp : p ∈ identTiles N) :
    p.1 < N ∧ p.2 < N := by
  simp only [identTiles, List.mem_map, List.mem_range] at hp
  obtain ⟨k, hk, rfl⟩ := hp
  have hk' : k < N * N := lt_of_lt_of_le (by rwa [pow_two] at hk) (Nat.sub_le _ _)
  exact ⟨(Nat.div_lt_iff_lt_mul hN).mpr (lt_of_lt_of_le hk' le_rfl), Nat.mod_lt _ hN⟩

theorem mul_pred_add_pred {N : Nat} (hN : 0 < N) : N * (N - 1) + (N - 1) = N * N - 1 := by
  obtain ⟨m, rfl⟩ : ∃ m, N = m + 1 := ⟨N - 1, (Nat.succ_pred_eq_of_pos hN).symm⟩
  have h : (m + 1) * (m + 1) = ((m + 1) * m + m) + 1 := by ring
  rw [h]
  simp

theorem vacant_not_mem_identTiles {N : Nat} (hN : 0 < N) :
    ((N - 1 : Nat), (N - 1 : Nat)) ∉ identTiles N := by
  intro h
  simp only [identTiles, List.mem_map, List.mem_range, Prod.mk.injEq] at h
  obtain ⟨k, hk, h1, h2⟩ := h
  have hkval : k = N * (N - 1) + (N - 1) := by
    conv_lhs => rw [← Nat.div_add_mod k N]
    rw [h1, h2]
  rw [hkval, mul_pred_add_pred hN, ← pow_two] at hk
  exact lt_irrefl _ hk

theorem identTiles_cover {N : Nat} (hN : 0 < N) (p : Nat × Nat)
    (h1 : p.1 < N) (h2 : p.2 < N) : p = (N - 1, N - 1) ∨ p ∈ identTiles N := by
  have hk : p.2 + p.1 * N < N * N := by
    calc p.2 + p.1 * N < N + p.1 * N := Nat.add_lt_add_right h2 _
      _ = (p.1 + 1) * N := by ring
      _ ≤ N * N := Nat.mul_le_mul_right _ h1
  have hdiv : (p.2 + p.1 * N) / N = p.1 := by
    rw [Nat.add_mul_div_right _ _ hN, Nat.div_eq_of_lt h2, Nat.zero_add]
  have hmod : (p.2 + p.1 * N) % N = p.2 := by
    rw [Nat.add_mul_mod_self_right, Nat.mod_eq_of_lt h2]
  by_cases hp : p = (N - 1, N - 1)
  · exact Or.inl hp
  · refine Or.inr (List.mem_iff_get?.mpr ⟨p.2 + p.1 * N, ?_⟩)
    have hklt : p.2 + p.1 * N < N ^ 2 - 1 := by
      rcases Nat.lt_or_ge (p.2 + p.1 * N) (N * N - 1) with h | h
      · rwa [pow_two]
      · exfalso
        have heq : p.2 + p.1 * N = N * N - 1 := le_antisymm (Nat.le_sub_one_of_lt hk) h
        apply hp
        have hd : p.1 = N - 1 := by
          rw [← hdiv, heq, ← mul_pred_add_pred hN, Nat.mul_add_div hN,
            Nat.div_eq_of_lt (Nat.sub_lt hN one_pos), Nat.add_zero]
        have hm : p.2 = N - 1 := by
          rw [← hmod, heq, ← mul_pred_add_pred hN, Nat.mul_add_mod,
            Nat.mod_eq_of_lt (Nat.sub_lt hN one_pos)]
        exact Prod.ext hd hm
    rw [identTiles_get? hklt, hdiv, hmod]

/-! ### Structural facts about the operations -/

theorem monitorStep_tiles (b : Board) : (monitorStep b).tiles = b.tiles := by
  simp only [monitorStep]
  split
  · split <;> rfl
  · rfl

theorem monitorStep_vacant (b : Board) : (monitorStep b).vacant = b.vacant := by
  simp only [monitorStep]
  split
  · split <;> rfl
  · rfl

theorem monitorStep_N (b : Board) : (monitorStep b).N = b.N := by
  simp only [monitorStep]
  split
  · split <;> rfl
  · rfl

theorem monitorStep_of_not_monitor {b : Board} (h : b.monitor = false) : monitorStep b = b := by
  simp [monitorStep, h]

theorem doSwap_none {b : Board} {t : Nat} (hg : b.tiles.get? t = none) : doSwap b t = b := by
  unfold doSwap
  rw [hg]

theorem doSwap_some_adj {b : Board} {t : Nat} {p : Nat × Nat}
    (hg : b.tiles.get? t = some p) (ha : adjacentB p b.vacant = true) :
    doSwap b t = { b with tiles := b.tiles.set t b.vacant, vacant := p } := by
  unfold doSwap
  rw [hg]
  simp [ha]

theorem doSwap_some_nadj {b : Board} {t : Nat} {p : Nat × Nat}
    (hg : b.tiles.get? t = some p) (ha : adjacentB p b.vacant = false) :
    doSwap b t = b := by
  unfold doSwap
  rw [hg]
  simp [ha]

theorem doSwap_N (b : Board) (t : Nat) : (doSwap b t).N = b.N := by
  unfold doSwap
  cases hg : b.tiles.get? t with
  | none => rfl
  | some p => dsimp only; split <;> rfl

theorem doSwap_monitor (b : Board) (t : Nat) : (doSwap b t).monitor = b.monitor := by
  unfold doSwap
  cases hg : b.tiles.get? t with
  | none => rfl
  | some p => dsimp only; split <;> rfl

theorem doSwap_moves (b : Board) (t : Nat) : (doSwap b t).moves = b.moves := by
  unfold doSwap
  cases hg : b.tiles.get? t with
  | none => rfl
  | some p => dsimp only; split <;> rfl

theorem doSwap_msgs (b : Board) (t : Nat) : (doSwap b t).msgs = b.msgs := by
  unfold doSwap
  cases hg : b.tiles.get? t with
  | none => rfl
  | some p => dsimp only; split <;> rfl

theorem move_N (b : Board) (t : Nat) : (move b t).N = b.N := by
  unfold move
  rw [monitorStep_N, doSwap_N]

theorem move_of_not_monitor {b : Board} (h : b.monitor = false) (t : Nat) :
    move b t = doSwap b t := by
  unfold move
  exact monitorStep_of_not_monitor (by rw [doSwap_monitor]; exact h)

theorem activate_N (b : Board) (p : Nat × Nat) : (activate b p).N = b.N := by
  unfold activate
  cases cellAt b.tiles p with
  | none => rfl
  | some t => exact move_N b t

theorem reset_N (b : Board) : (reset b).N = b.N := rfl

theorem foldl_move_N : ∀ (l : List Nat) (s : Board), (l.foldl move s).N = s.N := by
  intro l
  induction l with
  | nil => intro s; rfl
  | cons t l ih => intro s; rw [List.foldl_cons, ih, move_N]

theorem randomise_N (b : Board) (pick : Nat → Nat) : (randomise b pick).N = b.N := by
  unfold randomise
  rw [foldl_move_N]

/-! ### Preservation of the representation invariant -/

theorem inv_congr {b b' : Board} (h : Inv b) (ht : b'.tiles = b.tiles)
    (hv : b'.vacant = b.vacant) (hN : b'.N = b.N) : Inv b' := by
  constructor
  · rw [ht, hN]; exact h.len
  · rw [ht]; exact h.nodup
  · rw [ht, hN]; exact h.tiles_lt
  · rw [hv, hN]; exact h.vacant_lt
  · rw [ht, hv]; exact h.vacant_not_mem
  · rw [ht, hv, hN]; exact h.cover

theorem inv_doSwap {b : Board} (h : Inv b) (t : Nat) : Inv (doSwap b t) := by
  cases hg : b.tiles.get? t with
  | none => rw [doSwap_none hg]; exact h
  | some p =>
    cases ha : adjacentB p b.vacant with
    | false => rw [doSwap_some_nadj hg ha]; exact h
    | true =>
      rw [doSwap_some_adj hg ha]
      have hpmem : p ∈ b.tiles := List.mem_iff_get?.mpr ⟨t, hg⟩
      have hpv : p ≠ b.vacant := fun e => h.vacant_not_mem (e ▸ hpmem)
      constructor
      · simpa using h.len
      · exact nodup_set h.nodup h.vacant_not_mem t
      · intro q hq
        rcases List.mem_or_eq_of_mem_set hq with hq' | rfl
        · exact h.tiles_lt q hq'
        · exact h.vacant_lt
      · exact h.tiles_lt p hpmem
      · exact not_mem_set h.nodup hg hpv
      · intro q h1 h2
        rcases h.cover q h1 h2 with rfl | hqmem
        · exact Or.inr (mem_set_self hg)
        · rcases List.mem_iff_get?.mp hqmem with ⟨i, hi⟩
          by_cases hit : i = t
          · subst hit
            rw [hg] at hi
            exact Or.inl (Option.some_injective _ hi).symm
          · refine Or.inr (List.mem_iff_get?.mpr ⟨i, ?_⟩)
            show (b.tiles.set t b.vacant).get? i = some q
            rw [List.get?_set_ne _ _ (Ne.symm hit)]
            exact hi

theorem inv_monitorStep {b : Board} (h : Inv b) : Inv (monitorStep b) :=
  inv_congr h (monitorStep_tiles b) (monitorStep_vacant b) (monitorStep_N b)

theorem inv_move {b : Board} (h : Inv b) (t : Nat) : Inv (move b t) :=
  inv_monitorStep (inv_doSwap h t)

theorem inv_activate {b : Board} (h : Inv b) (p : Nat × Nat) : Inv (activate b p) := by
  unfold activate
  cases cellAt b.tiles p with
  | none => exact h
  | some t => exact inv_move h t

theorem inv_foldl_move : ∀ (l : List Nat) (s : Board), Inv s → Inv (l.foldl move s) := by
  intro l
  induction l with
  | nil => intro s h; exact h
  | cons t l ih => intro s h; rw [List.foldl_cons]; exact ih _ (inv_move h t)

theorem inv_randomise {b : Board} (h : Inv b) (pick : Nat → Nat) : Inv (randomise b pick) := by
  have h1 : Inv { b with monitor := false } := inv_congr h rfl rfl rfl
  have h2 := inv_foldl_move ((List.range (1000 * b.N)).map pick) { b with monitor := false } h1
  exact inv_congr h2 rfl rfl rfl

theorem inv_of_ident (b : Board) (hN : 1 ≤ b.N)
    (ht : b.tiles = identTiles b.N) (hv : b.vacant = (b.N - 1, b.N - 1)) : Inv b := by
  constructor
  · rw [ht, identTiles_length]
  · rw [ht]; exact identTiles_nodup _
  · rw [ht]; intro p hp; exact identTiles_mem hN hp
  · rw [hv]; exact ⟨Nat.sub_lt hN one_pos, Nat.sub_lt hN one_pos⟩
  · rw [ht, hv]; exact vacant_not_mem_identTiles hN
  · intro p h1 h2; rw [ht, hv]; exact identTiles_cover hN p h1 h2

theorem inv_reset {b : Board} (h : Inv b) (hN : 1 ≤ b.N) : Inv (reset b) := by
  refine inv_of_ident (reset b) hN ?_ rfl
  show (List.range b.tiles.length).map (fun i => (i / b.N, i % b.N)) = identTiles b.N
  rw [h.len]
  rfl

theorem inv_mkPuzzle {N : Nat} (hN : 1 ≤ N) : Inv (mkPuzzle N) :=
  inv_of_ident _ hN (by simpa [mkPuzzle] using initialLayout_eq_identTiles N) rfl

theorem reachable_N {N : Nat} {b : Board} (h : Reachable N b) : b.N = N := by
  induction h with
  | init => rfl
  | step_activate p _ ih => rw [activate_N]; exact ih
  | step_randomise pick _ ih => rw [randomise_N]; exact ih
  | step_reset _ ih => rw [reset_N]; exact ih

theorem reachable_inv {N : Nat} {b : Board} (hN : 1 ≤ N) (h : Reachable N b) : Inv b := by
  induction h with
  | init => exact inv_mkPuzzle hN
  | step_activate p hr ih => exact inv_activate ih p
  | step_randomise pick hr ih => exact inv_randomise ih pick
  | step_reset hr ih => exact inv_reset ih (by rw [reachable_N hr]; exact hN)

/-! ### The solved test -/

theorem encode_div {N r c : Nat} (hc : c < N) : (r * N + c) / N = r := by
  have hN : 0 < N := Nat.lt_of_le_of_lt (Nat.zero_le c) hc
  rw [Nat.add_comm, Nat.add_mul_div_right _ _ hN, Nat.div_eq_of_lt hc, Nat.zero_add]

theorem encode_mod {N r c : Nat} (hc : c < N) : (r * N + c) % N = c := by
  rw [Nat.add_comm, Nat.add_mul_mod_self_right, Nat.mod_eq_of_lt hc]

theorem solvedFrom_iff (N : Nat) : ∀ (l : List (Nat × Nat)) (i : Nat),
    solvedFrom N i l = true ↔ ∀ j p, l.get? j = some p → i + j = p.1 * N + p.2 := by
  intro l
  induction l with
  | nil => intro i; simp [solvedFrom]
  | cons q rest ih =>
    intro i
    simp only [solvedFrom, Bool.and_eq_true, beq_iff_eq]
    constructor
    · rintro ⟨h1, h2⟩ j p hj
      cases j with
      | zero =>
        simp only [List.get?_cons_zero, Option.some.injEq] at hj
        subst hj
        omega
      | succ j =>
        have := (ih (i + 1)).mp h2 j p (by simpa using hj)
        omega
    · intro hall
      refine ⟨?_, (ih (i + 1)).mpr ?_⟩
      · have := hall 0 q (by simp)
        omega
      · intro j p hj
        have := hall (j + 1) p (by simpa using hj)
        omega

theorem solvedCheck_iff (b : Board) :
    solvedCheck b = true ↔ ∀ j p, b.tiles.get? j = some p → j = p.1 * b.N + p.2 := by
  rw [solvedCheck, solvedFrom_iff]
  simp

/-- Under the invariant, the solved test succeeds exactly when every tile
`k` sits at its identity placement `(k / N, k % N)`. -/
theorem solvedCheck_iff_ident {b : Board} (h : Inv b) :
    solvedCheck b = true ↔ ∀ k, k < b.N ^ 2 - 1 → b.tiles.get? k = some (k / b.N, k % b.N) := by
  rw [solvedCheck_iff]
  constructor
  · intro hall k hk
    have hk' : k < b.tiles.length := by rw [h.len]; exact hk
    obtain ⟨p, hp⟩ : ∃ p, b.tiles.get? k = some p :=
      ⟨b.tiles.get ⟨k, hk'⟩, List.get?_eq_get hk'⟩
    have hkenc : k = p.1 * b.N + p.2 := hall k p hp
    have hpg := h.tiles_lt p (List.mem_iff_get?.mpr ⟨k, hp⟩)
    rw [hp, hkenc, encode_div hpg.2, encode_mod hpg.2]
  · intro hall j p hj
    have hj' : j < b.N ^ 2 - 1 := by
      rw [← h.len]
      exact (List.get?_eq_some.mp hj).1
    rw [hall j hj'] at hj
    have hp : p = (j / b.N, j % b.N) := (Option.some_injective _ hj).symm
    rw [hp]
    show j = j / b.N * b.N + j % b.N
    rw [Nat.mul_comm]
    exact (Nat.div_add_mod j b.N).symm

theorem solvedCheck_moves (b : Board) (m : Nat) :
    solvedCheck { b with moves := m } = solvedCheck b := rfl

/-! ### The monitored half of `move` -/

theorem monitorStep_solved {b : Board} (hm : b.monitor = true) (hs : solvedCheck b = true) :
    monitorStep b =
      { b with moves := b.moves + 1, monitor := false, msgs := b.msgs ++ [b.moves + 1] } := by
  unfold monitorStep
  rw [hm]
  simp only [if_true]
  split
  · rfl
  · next hcond =>
      exact absurd (show solvedCheck { b with moves := b.moves + 1 } = true from hs) hcond

theorem monitorStep_unsolved {b : Board} (hm : b.monitor = true) (hs : solvedCheck b = false) :
    monitorStep b = { b with moves := b.moves + 1 } := by
  unfold monitorStep
  rw [hm]
  simp only [if_true]
  split
  · next hcond =>
    have hc : solvedCheck b = true := hcond
    rw [hs] at hc
    cases hc
  · rfl

/-! ### `activate` versus `move` -/

theorem activate_eq_move {b : Board} {p : Nat × Nat} {t : Nat}
    (hc : cellAt b.tiles p = some t) : activate b p = move b t := by
  unfold activate
  rw [hc]

theorem activate_none {b : Board} {p : Nat × Nat}
    (hc : cellAt b.tiles p = none) : activate b p = b := by
  unfold activate
  rw [hc]

theorem move_eq_activate {s : Board} {t : Nat} (hnd : s.tiles.Nodup)
    (h : t < s.tiles.length) : move s t = activate s (s.tiles.get ⟨t, h⟩) := by
  have hg : s.tiles.get? t = some (s.tiles.get ⟨t, h⟩) := List.get?_eq_get h
  rw [activate_eq_move (cellAt_of_nodup hnd hg)]

/-! ### The shuffle loop -/

theorem randomise_eq (b : Board) (pick : Nat → Nat) :
    randomise b pick =
      { ((List.range (1000 * b.N)).map pick).foldl move { b with monitor := false } with
        monitor := true, moves := 0 } := rfl

theorem foldl_move_not_monitor : ∀ (l : List Nat) (s : Board), s.monitor = false →
    (l.foldl move s).monitor = false ∧ (l.foldl move s).moves = s.moves ∧
    (l.foldl move s).msgs = s.msgs := by
  intro l
  induction l with
  | nil => intro s h; exact ⟨h, rfl, rfl⟩
  | cons t l ih =>
    intro s h
    rw [List.foldl_cons]
    have hm : move s t = doSwap s t := move_of_not_monitor h t
    have h1 : (move s t).monitor = false := by rw [hm, doSwap_monitor]; exact h
    obtain ⟨ha, hb, hc⟩ := ih (move s t) h1
    refine ⟨ha, ?_, ?_⟩
    · rw [hb, hm, doSwap_moves]
    · rw [hc, hm, doSwap_msgs]

theorem randomise_monitor (b : Board) (pick : Nat → Nat) :
    (randomise b pick).monitor = true := rfl

theorem randomise_moves (b : Board) (pick : Nat → Nat) :
    (randomise b pick).moves = 0 := rfl

theorem randomise_msgs (b : Board) (pick : Nat → Nat) :
    (randomise b pick).msgs = b.msgs := by
  rw [randomise_eq]
  exact (foldl_move_not_monitor _ { b with monitor := false } rfl).2.2

/-! ### Reachability by adjacent swaps -/

theorem conf_monitorStep (b : Board) : conf (monitorStep b) = conf b := by
  unfold conf
  rw [monitorStep_tiles, monitorStep_vacant]

theorem swapReach_move {c : List (Nat × Nat) × (Nat × Nat)} {b : Board}
    (h : SwapReach c (conf b)) (t : Nat) : SwapReach c (conf (move b t)) := by
  unfold move
  rw [conf_monitorStep]
  cases hg : b.tiles.get? t with
  | none => rw [doSwap_none hg]; exact h
  | some p =>
    cases ha : adjacentB p b.vacant with
    | false => rw [doSwap_some_nadj hg ha]; exact h
    | true =>
      rw [doSwap_some_adj hg ha]
      exact SwapReach.tail h (SwapStep.mk (conf b) t p hg ha)

theorem swapReach_foldl {c : List (Nat × Nat) × (Nat × Nat)} :
    ∀ (l : List Nat) (s : Board), SwapReach c (conf s) → SwapReach c (conf (l.foldl move s)) := by
  intro l
  induction l with
  | nil => intro s h; exact h
  | cons t l ih => intro s h; rw [List.foldl_cons]; exact ih _ (swapReach_move h t)

theorem swapReach_randomise {c : List (Nat × Nat) × (Nat × Nat)} {b : Board}
    (h : SwapReach c (conf b)) (pick : Nat → Nat) : SwapReach c (conf (randomise b pick)) := by
  have h0 : SwapReach c (conf { b with monitor := false }) := h
  have h1 := swapReach_foldl ((List.range (1000 * b.N)).map pick) { b with monitor := false } h0
  exact h1

theorem swapReach_foldl_randomise {c : List (Nat × Nat) × (Nat × Nat)} :
    ∀ (ps : List (Nat → Nat)) (s : Board),
      SwapReach c (conf s) → SwapReach c (conf (ps.foldl randomise s)) := by
  intro ps
  induction ps with
  | nil => intro s h; exact h
  | cons pk ps ih => intro s h; rw [List.foldl_cons]; exact ih _ (swapReach_randomise h pk)

/-! ### Claim theorems -/

/-- C1: for every board state satisfying the representation invariant and
every in-grid position `p`, `activate(p)` changes the grid iff `p` is
exactly one adjacency step from the vacancy.  When adjacent, the tile at
`p` moves into the old vacant cell, the cell `p` becomes vacant, every
other cell is untouched, and the cached vacancy becomes `p`; when
non-adjacent, the tile list (hence every cell) and the vacancy are
unchanged, and `activate` is a total function (no error). -/
theorem activate_move_legality (b : Board) (p : Nat × Nat) (hInv : Inv b)
    (hp : inGrid b.N p) :
    (adjacentB p b.vacant = true →
        (activate b p).vacant = p
      ∧ cellAt (activate b p).tiles b.vacant = cellAt b.tiles p
      ∧ cellAt b.tiles p ≠ none
      ∧ cellAt (activate b p).tiles p = none
      ∧ (∀ q : Nat × Nat, q ≠ p → q ≠ b.vacant →
            cellAt (activate b p).tiles q = cellAt b.tiles q))
  ∧ (adjacentB p b.vacant = false →
        (activate b p).vacant = b.vacant ∧ (activate b p).tiles = b.tiles) := by
  constructor
  · intro hadj
    have hpv : p ≠ b.vacant := adjacentB_ne hadj
    have hpmem : p ∈ b.tiles := by
      rcases hInv.cover p hp.1 hp.2 with h | h
      · exact absurd h hpv
      · exact h
    obtain ⟨t, hct⟩ : ∃ t, cellAt b.tiles p = some t := by
      rcases hc : cellAt b.tiles p with _ | t
      · exact absurd hpmem (cellAt_eq_none.mp hc)
      · exact ⟨t, rfl⟩
    have hg : b.tiles.get? t = some p := cellAt_get? hct
    rw [activate_eq_move hct]
    have hswap := doSwap_some_adj hg hadj
    have htiles : (move b t).tiles = b.tiles.set t b.vacant := by
      unfold move
      rw [monitorStep_tiles, hswap]
    have hvac : (move b t).vacant = p := by
      unfold move
      rw [monitorStep_vacant, hswap]
    have hnd' := nodup_set hInv.nodup hInv.vacant_not_mem t
    refine ⟨hvac, ?_, by simp [hct], ?_, ?_⟩
    · rw [htiles, hct]
      exact cellAt_of_nodup hnd' (get?_set_self hg)
    · rw [htiles]
      exact cellAt_eq_none.mpr (not_mem_set hInv.nodup hg hpv)
    · intro q hqp hqv
      rw [htiles]
      rcases hq : cellAt b.tiles q with _ | u
      · have hq' : q ∉ b.tiles := cellAt_eq_none.mp hq
        apply cellAt_eq_none.mpr
        intro hmem
        rcases List.mem_or_eq_of_mem_set hmem with hm | rfl
        · exact hq' hm
        · exact hqv rfl
      · have hgu : b.tiles.get? u = some q := cellAt_get? hq
        have hut : u ≠ t := by
          intro e
          subst e
          rw [hg] at hgu
          exact hqp (Option.some_injective _ hgu).symm
        refine cellAt_of_nodup hnd' ?_
        rw [List.get?_set_ne _ _ (Ne.symm hut)]
        exact hgu
  · intro hadj
    rcases hc : cellAt b.tiles p with _ | t
    · rw [activate_none hc]
      exact ⟨rfl, rfl⟩
    · have hg := cellAt_get? hc
      rw [activate_eq_move hc]
      have hswap : doSwap b t = b := doSwap_some_nadj hg hadj
      constructor
      · unfold move
        rw [monitorStep_vacant, hswap]
      · unfold move
        rw [monitorStep_tiles, hswap]

/-- Witness for C1: on the 3×3 identity board, activating `(2,1)` (adjacent
to the vacancy `(2,2)`) moves the vacancy to `(2,1)`. -/
theorem activate_move_legality_witness :
    (activate (mkPuzzle 3) (2, 1)).vacant = (2, 1) :=
  ((activate_move_legality (mkPuzzle 3) (2, 1) (inv_mkPuzzle (by decide))
    (by decide)).1 (by decide)).1

/-- C6 counterexample: with monitoring on, activating `(0,0)` — not
adjacent to the vacancy `(2,2)` — performs no swap yet still increments
`moves` from 0 to 1, contradicting the claim that a non-adjacent
activation leaves the counter unchanged. -/
theorem moveCount_claim_counterexample :
    adjacentB (0, 0) ({ mkPuzzle 3 with monitor := true } : Board).vacant = false
  ∧ (activate { mkPuzzle 3 with monitor := true } (0, 0)).tiles =
      ({ mkPuzzle 3 with monitor := true } : Board).tiles
  ∧ ({ mkPuzzle 3 with monitor := true } : Board).moves = 0
  ∧ (activate { mkPuzzle 3 with monitor := true } (0, 0)).moves = 1 := by decide

/-- C6 amended: while monitoring is on, an activation of any cell holding a
tile increments `moves` by exactly 1 whether or not the swap occurred; only
an activation of the vacant cell (which hosts no button) leaves the state
unchanged. -/
theorem moveCount_increment (b : Board) (p : Nat × Nat) (hmon : b.monitor = true) :
    (∀ t, cellAt b.tiles p = some t → (activate b p).moves = b.moves + 1)
  ∧ (cellAt b.tiles p = none → activate b p = b) := by
  constructor
  · intro t hc
    rw [activate_eq_move hc]
    unfold move
    have hdm : (doSwap b t).monitor = true := by rw [doSwap_monitor]; exact hmon
    cases hs : solvedCheck (doSwap b t) with
    | true => rw [monitorStep_solved hdm hs]; simp [doSwap_moves]
    | false => rw [monitorStep_unsolved hdm hs]; simp [doSwap_moves]
  · exact activate_none

/-- Witness for the amended C6: the monitored non-adjacent activation of
`(0,0)` on the identity board yields `moves = 1`. -/
theorem moveCount_increment_witness :
    (activate { mkPuzzle 3 with monitor := true } (0, 0)).moves = 1 :=
  (moveCount_increment { mkPuzzle 3 with monitor := true } (0, 0) rfl).1 0 (by decide)

/-- C7 counterexample: reach the Solved state (monitoring off, popup
emitted with count 1, board solved), then activate `(2,1)`; the vacancy
moves, so the grid changes — activation in the Solved state is not a
no-op. -/
theorem solvedState_claim_counterexample :
    (activate { mkPuzzle 3 with monitor := true } (0, 0)).monitor = false
  ∧ (activate { mkPuzzle 3 with monitor := true } (0, 0)).msgs = [1]
  ∧ solvedCheck (activate { mkPuzzle 3 with monitor := true } (0, 0)) = true
  ∧ (activate (activate { mkPuzzle 3 with monitor := true } (0, 0)) (2, 1)).vacant ≠
      (activate { mkPuzzle 3 with monitor := true } (0, 0)).vacant := by decide

/-- C7 amended: when monitoring is off (the Solved state in particular),
`activate` leaves `moves`, the notification list and the monitoring flag
unchanged and raises no error, but the adjacency swap still runs: a click
adjacent to the vacancy changes the grid and the cached vacancy exactly as
in the Playing state, and only a non-adjacent click is a complete no-op. -/
theorem solvedState_activate (b : Board) (p : Nat × Nat) (hmon : b.monitor = false) :
    (activate b p).moves = b.moves
  ∧ (activate b p).msgs = b.msgs
  ∧ (activate b p).monitor = false
  ∧ (∀ t, cellAt b.tiles p = some t → adjacentB p b.vacant = true →
      (activate b p).vacant = p ∧ (activate b p).tiles = b.tiles.set t b.vacant)
  ∧ (∀ t, cellAt b.tiles p = some t → adjacentB p b.vacant = false → activate b p = b) := by
  rcases hc : cellAt b.tiles p with _ | t
  · rw [activate_none hc]
    refine ⟨rfl, rfl, hmon, ?_, ?_⟩
    · intro t h
      exact Option.noConfusion h
    · intro t h
      exact Option.noConfusion h
  · rw [activate_eq_move hc, move_of_not_monitor hmon]
    have hg := cellAt_get? hc
    refine ⟨by rw [doSwap_moves], by rw [doSwap_msgs], by rw [doSwap_monitor]; exact hmon,
      ?_, ?_⟩
    · intro t' h hadj
      obtain rfl : t = t' := Option.some_injective _ h
      rw [doSwap_some_adj hg hadj]
      exact ⟨rfl, rfl⟩
    · intro t' h hadj
      obtain rfl : t = t' := Option.some_injective _ h
      exact doSwap_some_nadj hg hadj

/-- Witness for the amended C7: on the freshly constructed (unmonitored)
identity board, activating the adjacent cell `(2,1)` moves the vacancy
while leaving the move counter at 0. -/
theorem solvedState_activate_witness :
    (activate (mkPuzzle 3) (2, 1)).moves = (mkPuzzle 3).moves ∧
    (activate (mkPuzzle 3) (2, 1)).vacant = (2, 1) :=
  ⟨(solvedState_activate (mkPuzzle 3) (2, 1) rfl).1,
    (((solvedState_activate (mkPuzzle 3) (2, 1) rfl).2.2.2.1) 7 (by decide) (by decide)).1⟩

/-- On the freshly constructed identity board, one adjacent swap produces a
configuration the solved test rejects: the moved tile now encodes the
bottom-right index `N²-1`, which no tile identifier equals. -/
theorem solvedCheck_one_swap {N : Nat} (hN : 1 ≤ N) (q : Nat × Nat)
    (hq : inGrid N q) (hadj : adjacentB q (N - 1, N - 1) = true) :
    solvedCheck (activate (mkPuzzle N) q) = false := by
  have hInv := inv_mkPuzzle hN
  have hqv : q ≠ (N - 1, N - 1) := adjacentB_ne hadj
  have hqmem : q ∈ (mkPuzzle N).tiles := by
    rcases hInv.cover q hq.1 hq.2 with h | h
    · exact absurd h hqv
    · exact h
  obtain ⟨t0, hct⟩ : ∃ t0, cellAt (mkPuzzle N).tiles q = some t0 := by
    rcases hc : cellAt (mkPuzzle N).tiles q with _ | t0
    · exact absurd hqmem (cellAt_eq_none.mp hc)
    · exact ⟨t0, rfl⟩
  have hg := cellAt_get? hct
  have ht0 : t0 < (mkPuzzle N).tiles.length := (List.get?_eq_some.mp hg).1
  have ht0' : t0 < N * N - 1 := by
    rw [show (mkPuzzle N).tiles.length = N * N - 1 from initialLayout_length N] at ht0
    exact ht0
  rw [activate_eq_move hct, move_of_not_monitor rfl,
    doSwap_some_adj hg (show adjacentB q (mkPuzzle N).vacant = true from hadj)]
  by_contra hcon
  have hs : solvedCheck { mkPuzzle N with
      tiles := (mkPuzzle N).tiles.set t0 (mkPuzzle N).vacant, vacant := q } = true := by
    revert hcon
    cases solvedCheck { mkPuzzle N with
        tiles := (mkPuzzle N).tiles.set t0 (mkPuzzle N).vacant, vacant := q } <;> simp
  have happ := (solvedCheck_iff _).mp hs t0 (N - 1, N - 1) (by
    show ((mkPuzzle N).tiles.set t0 (mkPuzzle N).vacant).get? t0 = some (N - 1, N - 1)
    exact get?_set_self hg)
  have hNN : (N - 1) * N + (N - 1) = N * N - 1 := by
    rw [Nat.mul_comm]
    exact mul_pred_add_pred (Nat.lt_of_lt_of_le Nat.zero_lt_one hN)
  rw [show ({ mkPuzzle N with
      tiles := (mkPuzzle N).tiles.set t0 (mkPuzzle N).vacant, vacant := q } : Board).N = N
      from rfl] at happ
  dsimp only at happ
  omega

/-- C3: with monitoring on, after any activation of a tile the solved
condition is tested on the post-swap grid; it holds iff every tile `k`
sits at its identity placement `(k div N, k mod N)`.  When it holds,
monitoring turns off and a solved popup carrying the final move count
(`moves + 1`) is emitted; when it fails, monitoring stays on and no popup
appears.  Moreover the test rejects every configuration one adjacent swap
away from identity. -/
theorem solved_detection (b : Board) (p : Nat × Nat) (t : Nat) (hInv : Inv b)
    (hN : 1 ≤ b.N) (hmon : b.monitor = true) (hp : cellAt b.tiles p = some t) :
    (solvedCheck (doSwap b t) = true ↔
        ∀ k, k < b.N ^ 2 - 1 → (doSwap b t).tiles.get? k = some (k / b.N, k % b.N))
  ∧ (solvedCheck (doSwap b t) = true →
        (activate b p).monitor = false
      ∧ (activate b p).msgs = b.msgs ++ [b.moves + 1]
      ∧ (activate b p).moves = b.moves + 1)
  ∧ (solvedCheck (doSwap b t) = false →
        (activate b p).monitor = true
      ∧ (activate b p).msgs = b.msgs
      ∧ (activate b p).moves = b.moves + 1)
  ∧ (∀ q : Nat × Nat, inGrid b.N q → adjacentB q (b.N - 1, b.N - 1) = true →
        solvedCheck (activate (mkPuzzle b.N) q) = false) := by
  have hds_mon : (doSwap b t).monitor = true := by rw [doSwap_monitor]; exact hmon
  refine ⟨?_, ?_, ?_, ?_⟩
  · have h := solvedCheck_iff_ident (inv_doSwap hInv t)
    rw [doSwap_N] at h
    exact h
  · intro hs
    rw [activate_eq_move hp]
    unfold move
    rw [monitorStep_solved hds_mon hs]
    refine ⟨rfl, ?_, ?_⟩
    · show (doSwap b t).msgs ++ [(doSwap b t).moves + 1] = b.msgs ++ [b.moves + 1]
      rw [doSwap_msgs, doSwap_moves]
    · show (doSwap b t).moves + 1 = b.moves + 1
      rw [doSwap_moves]
  · intro hs
    rw [activate_eq_move hp]
    unfold move
    rw [monitorStep_unsolved hds_mon hs]
    refine ⟨hds_mon, by rw [doSwap_msgs], ?_⟩
    show (doSwap b t).moves + 1 = b.moves + 1
    rw [doSwap_moves]
  · intro q hqg hqadj
    exact solvedCheck_one_swap hN q hqg hqadj

/-- Witness for C3: activating `(0,0)` on the monitored identity board
leaves the grid solved, so the popup fires and monitoring turns off. -/
theorem solved_detection_witness :
    (activate { mkPuzzle 3 with monitor := true } (0, 0)).monitor = false :=
  ((solved_detection { mkPuzzle 3 with monitor := true } (0, 0) 0
    (inv_of_ident _ (by decide) (by decide) (by decide)) (by decide) rfl
    (by decide)).2.1 (by decide)).1

/-- C2: every configuration produced by any sequence of `shuffle()` calls
starting from the identity configuration is reachable from identity by a
finite sequence of adjacent-to-vacancy swaps (each shuffle iteration runs
the same adjacency-swap logic as `activate`, hence is a legal swap or a
no-op). -/
theorem shuffle_reachable_from_identity (N : Nat) (ps : List (Nat → Nat)) :
    SwapReach (identTiles N, (N - 1, N - 1)) (conf (ps.foldl randomise (mkPuzzle N))) := by
  have h0 : SwapReach (identTiles N, (N - 1, N - 1)) (conf (mkPuzzle N)) := by
    have he : conf (mkPuzzle N) = (identTiles N, (N - 1, N - 1)) := by
      unfold conf mkPuzzle
      rw [initialLayout_eq_identTiles]
    rw [he]
    exact SwapReach.refl _
  exact swapReach_foldl_randomise ps (mkPuzzle N) h0

/-- C4: in every state reachable from construction by `activate`, `shuffle`
and `reset`, exactly one in-grid cell is vacant, that cell is the cached
`vacant` position, and every tile identifier `0 .. N²-2` occupies exactly
one in-grid cell. -/
theorem reachable_state_valid (N : Nat) (b : Board) (hN : 1 ≤ N) (hb : Reachable N b) :
    (∃! p : Nat × Nat, inGrid b.N p ∧ cellAt b.tiles p = none)
  ∧ (inGrid b.N b.vacant ∧ cellAt b.tiles b.vacant = none)
  ∧ (∀ t, t < b.N ^ 2 - 1 → ∃! p : Nat × Nat, inGrid b.N p ∧ cellAt b.tiles p = some t) := by
  have hInv := reachable_inv hN hb
  refine ⟨?_, ⟨hInv.vacant_lt, cellAt_eq_none.mpr hInv.vacant_not_mem⟩, ?_⟩
  · refine ⟨b.vacant, ⟨hInv.vacant_lt, cellAt_eq_none.mpr hInv.vacant_not_mem⟩, ?_⟩
    rintro q ⟨hqg, hqnone⟩
    rcases hInv.cover q hqg.1 hqg.2 with h | h
    · exact h
    · exact absurd h (cellAt_eq_none.mp hqnone)
  · intro t ht
    have ht' : t < b.tiles.length := by rw [hInv.len]; exact ht
    obtain ⟨p, hp⟩ : ∃ p, b.tiles.get? t = some p :=
      ⟨b.tiles.get ⟨t, ht'⟩, List.get?_eq_get ht'⟩
    have hmem : p ∈ b.tiles := List.mem_iff_get?.mpr ⟨t, hp⟩
    refine ⟨p, ⟨hInv.tiles_lt p hmem, cellAt_of_nodup hInv.nodup hp⟩, ?_⟩
    rintro q ⟨hqg, hq⟩
    have hgq := cellAt_get? hq
    rw [hp] at hgq
    exact (Option.some_injective _ hgq).symm

/-- Witness for C4: on the freshly constructed 3×3 board, the cached
vacancy `(2,2)` is indeed an empty in-grid cell. -/
theorem reachable_state_valid_witness :
    inGrid (mkPuzzle 3).N (mkPuzzle 3).vacant ∧
    cellAt (mkPuzzle 3).tiles (mkPuzzle 3).vacant = none :=
  (reachable_state_valid 3 (mkPuzzle 3) (by decide) Reachable.init).2.1

/-- C5: `shuffle()` disables monitoring, then runs exactly `1000 * N`
iterations of `move` on the picked buttons — the same adjacency-swap logic
`activate` runs on the position of the picked button — with monitoring off at
every intermediate state, and on completion re-enables monitoring and
zeroes the move counter. -/
theorem shuffle_loop_structure (b : Board) (pick : Nat → Nat) (s : Board) (t : Nat)
    (hnd : s.tiles.Nodup) (ht : t < s.tiles.length) :
    randomise b pick =
      { ((List.range (1000 * b.N)).map pick).foldl move { b with monitor := false } with
        monitor := true, moves := 0 }
  ∧ ((List.range (1000 * b.N)).map pick).length = 1000 * b.N
  ∧ (∀ j, ((((List.range (1000 * b.N)).map pick).take j).foldl move
        { b with monitor := false }).monitor = false)
  ∧ (randomise b pick).moves = 0
  ∧ (randomise b pick).monitor = true
  ∧ move s t = activate s (s.tiles.get ⟨t, ht⟩) := by
  refine ⟨randomise_eq b pick, by simp, ?_, randomise_moves b pick, randomise_monitor b pick,
    move_eq_activate hnd ht⟩
  intro j
  exact (foldl_move_not_monitor _ { b with monitor := false } rfl).1

/-- Witness for C5: after shuffling the 3×3 board with an arbitrary
concrete pick stream, monitoring is on. -/
theorem shuffle_loop_structure_witness :
    (randomise (mkPuzzle 3) (fun k => k)).monitor = true :=
  (shuffle_loop_structure (mkPuzzle 3) (fun k => k) (mkPuzzle 3) 0
    (by decide) (by decide)).2.2.2.2.1

/-- C8 counterexample: the source constructor accepts `N = 2` and builds a
2×2 identity board with no error of any kind, while the specified
`create` fails with `InvalidSize`; the argv parsing in `main` maps the size
argument `2` silently to the default 3 instead of failing. -/
theorem construction_claim_counterexample :
    createSpec 2 = Except.error ConstructErr.invalidSize
  ∧ mkPuzzle 2 = ⟨2, [(0, 0), (0, 1), (1, 0)], (1, 1), false, 0, []⟩
  ∧ parseSize (some 2) = 3 :=
  ⟨rfl, by decide, by decide⟩

/-- C8 amended: the constructor performs no size validation: for every
`N ≥ 1` it succeeds and yields the identity configuration (tile `k` at
`(k div N, k mod N)`, vacancy at `(N-1, N-1)`, counter 0, monitoring off).
The `size > 2` guard lives only in the argument parsing of `main`, which
silently substitutes the default 3 for a missing, malformed or too-small
argument, so the constructed size always exceeds 2 but no `InvalidSize`
error is ever raised. -/
theorem construction_behaviour (N : Nat) (n : Int) (hN : 1 ≤ N) :
    (∀ k, k < N ^ 2 - 1 → (mkPuzzle N).tiles.get? k = some (k / N, k % N))
  ∧ (mkPuzzle N).vacant = (N - 1, N - 1)
  ∧ (mkPuzzle N).moves = 0
  ∧ (mkPuzzle N).monitor = false
  ∧ (n ≤ 2 → parseSize (some n) = 3)
  ∧ (2 < n → parseSize (some n) = n.toNat)
  ∧ 2 < parseSize (some n)
  ∧ parseSize none = 3 := by
  refine ⟨?_, rfl, rfl, rfl, ?_, ?_, ?_, rfl⟩
  · intro k hk
    have hk' : k < N * N - 1 := by rwa [pow_two] at hk
    exact initialLayout_get? (Nat.lt_of_lt_of_le Nat.zero_lt_one hN) hk'
  · intro h
    simp [parseSize, not_lt.mpr h]
  · intro h
    simp [parseSize, h]
  · rcases lt_or_le 2 n with h | h
    · rw [show parseSize (some n) = n.toNat by simp [parseSize, h]]
      omega
    · rw [show parseSize (some n) = 3 by simp [parseSize, not_lt.mpr h]]
      norm_num

/-- Witness for the amended C8: size 2 is accepted by the constructor
(vacancy at `(1,1)`), and `main` turns the argument `2` into 3. -/
theorem construction_behaviour_witness :
    (mkPuzzle 2).vacant = (1, 1) ∧ parseSize (some 2) = 3 :=
  ⟨(construction_behaviour 2 2 (by decide)).2.1,
    (construction_behaviour 2 2 (by decide)).2.2.2.2.1 (by decide)⟩

/-- C9: from any state satisfying the invariant, `reset()` restores the
identity configuration (button `i` at `(i div N, i mod N)`, vacancy at
`(N-1, N-1)`), zeroes the move counter and disables monitoring; calling it
twice in a row produces the identical state both times. -/
theorem reset_behaviour (b : Board) (hInv : Inv b) :
    (reset b).tiles = identTiles b.N
  ∧ (reset b).vacant = (b.N - 1, b.N - 1)
  ∧ (reset b).moves = 0
  ∧ (reset b).monitor = false
  ∧ reset (reset b) = reset b := by
  refine ⟨?_, rfl, rfl, rfl, ?_⟩
  · show (List.range b.tiles.length).map _ = _
    rw [hInv.len]
    rfl
  · simp only [reset, List.length_map, List.length_range]

/-- Witness for C9: double reset of the 3×3 board equals a single reset. -/
theorem reset_behaviour_witness :
    reset (reset (mkPuzzle 3)) = reset (mkPuzzle 3) :=
  (reset_behaviour (mkPuzzle 3) (inv_mkPuzzle (by decide))).2.2.2.2

/-- C10: `shuffle()` never emits a solved popup and never changes the move
counter while iterating (monitoring is off throughout the loop); it ends
with monitoring on and the counter at 0.  Any solved popup comes from a
later monitored activation, whose counter increment precedes the solved
test, so an emitted popup always carries a count of at least 1. -/
theorem shuffle_silent (b : Board) (pick : Nat → Nat) (s : Board) (q : Nat × Nat) :
    (randomise b pick).msgs = b.msgs
  ∧ (∀ j, ((((List.range (1000 * b.N)).map pick).take j).foldl move
        { b with monitor := false }).moves = b.moves
      ∧ ((((List.range (1000 * b.N)).map pick).take j).foldl move
        { b with monitor := false }).msgs = b.msgs)
  ∧ (randomise b pick).moves = 0
  ∧ (randomise b pick).monitor = true
  ∧ ((activate s q).msgs = s.msgs ∨
      ((activate s q).msgs = s.msgs ++ [(activate s q).moves]
        ∧ 1 ≤ (activate s q).moves)) := by
  refine ⟨randomise_msgs b pick, ?_, randomise_moves b pick, randomise_monitor b pick, ?_⟩
  · intro j
    exact ⟨(foldl_move_not_monitor _ { b with monitor := false } rfl).2.1,
      (foldl_move_not_monitor _ { b with monitor := false } rfl).2.2⟩
  · rcases hc : cellAt s.tiles q with _ | t
    · rw [activate_none hc]
      exact Or.inl rfl
    · rw [activate_eq_move hc]
      unfold move
      cases hm : s.monitor with
      | false =>
        rw [monitorStep_of_not_monitor (by rw [doSwap_monitor]; exact hm)]
        exact Or.inl (doSwap_msgs s t)
      | true =>
        have hdm : (doSwap s t).monitor = true := by rw [doSwap_monitor]; exact hm
        cases hs : solvedCheck (doSwap s t) with
        | false =>
          rw [monitorStep_unsolved hdm hs]
          exact Or.inl (doSwap_msgs s t)
        | true =>
          rw [monitorStep_solved hdm hs]
          refine Or.inr ⟨?_, Nat.succ_le_succ (Nat.zero_le _)⟩
          show (doSwap s t).msgs ++ [(doSwap s t).moves + 1]
              = s.msgs ++ [(doSwap s t).moves + 1]
          rw [doSwap_msgs]

end Puzzle
